import Mathlib

/-!
Verification of the DFJ TSP formulation script (`TSP_DFJ_Pyomo.py`).

The script builds a Dantzig–Fulkerson–Johnson model for the travelling
salesman problem: a powerset enumerator (`powerset`), node sets
`N0 = [0..n]` and `N = [1..n-1]`, one binary variable per ordered arc,
an objective with costs looked up as `costMatrix[i-1][j-1]` (Python
negative indices wrap around), degree constraints for customer nodes,
subtour-elimination constraints over `list(powerset(N0))[1:-1]`, and a
result-extraction phase.  Every definition below is a direct shallow
embedding of the corresponding Python construct.
-/

namespace TSPDFJ

/-- Embedding of `itertools.combinations(s, r)`: all `r`-element
subsequences of `s`, in the order itertools emits them (lexicographic by
position: first every combination containing the head, then the rest). -/
def combinations {α : Type} : ℕ → List α → List (List α)
  | 0, _ => [[]]
  | _ + 1, [] => []
  | r + 1, x :: xs => ((combinations r xs).map (fun t => x :: t)) ++ combinations (r + 1) xs

/-- Embedding of the script's `powerset`:
`chain.from_iterable(combinations(s, r) for r in range(len(s)+1))`. -/
def powerset {α : Type} (s : List α) : List (List α) :=
  (List.range (s.length + 1)).flatMap (fun r => combinations r s)

/-- Embedding of the Python slice `xs[1:-1]` on a list. -/
def pySlice1m1 {α : Type} (xs : List α) : List α :=
  (xs.drop 1).dropLast

/-- Embedding of Python list indexing `xs[k]`: a negative index wraps
around once (`xs[len(xs) + k]`); an index out of range is an error
(`none`). -/
def pyGet {α : Type} (xs : List α) (k : Int) : Option α :=
  if k < 0 then
    if 0 ≤ (xs.length : Int) + k then xs.get? ((xs.length : Int) + k).toNat else none
  else xs.get? k.toNat

/-- `N0 = [i for i in range(0, n+1)]`: all nodes, depot `0` included. -/
def N0 (n : ℕ) : List ℕ := List.range (n + 1)

/-- `N = [i for i in range(1, n)]`: the customer nodes `1..n-1`. -/
def Ncust (n : ℕ) : List ℕ := List.range' 1 (n - 1)

/-- `arc_IJ = [(i,j) for i in N0 for j in N0 if i != j]`. -/
def arc_IJ (n : ℕ) : List (ℕ × ℕ) :=
  (N0 n).flatMap (fun i => (((N0 n).filter (fun j => i ≠ j)).map (fun j => (i, j))))

/-- The cost dictionary entry `c[(i,j)] = costMatrix[i-1][j-1]`, with
Python indexing semantics (negative indices wrap). -/
def cCoeff (M : List (List ℚ)) (i j : ℕ) : Option ℚ :=
  (pyGet M ((i : Int) - 1)).bind (fun row => pyGet row ((j : Int) - 1))

/-- Comparator of a linear constraint added to the Pyomo model. -/
inductive Rel : Type
  | eq : Rel
  | le : Rel
deriving DecidableEq

/-- A linear constraint as the script builds one: a sum of distinct
`x[i,j]` variables (each with coefficient 1, listed in the order the
generating comprehension produces them), a comparator and a constant
right-hand side. -/
structure Constraint : Type where
  arcs : List (ℕ × ℕ)
  rel : Rel
  rhs : Int
deriving DecidableEq

/-- `model.constraints.add(sum([model.x[i,j] for i in N0 if i != j]) == 1)`
for a fixed `j`: the inbound degree constraint. -/
def inboundCon (n : ℕ) (j : ℕ) : Constraint :=
  ⟨((N0 n).filter (fun i => i ≠ j)).map (fun i => (i, j)), Rel.eq, 1⟩

/-- `model.constraints.add(sum([model.x[i,j] for j in N0 if i != j]) == 1)`
for a fixed `i`: the outbound degree constraint. -/
def outboundCon (n : ℕ) (i : ℕ) : Constraint :=
  ⟨((N0 n).filter (fun j => i ≠ j)).map (fun j => (i, j)), Rel.eq, 1⟩

/-- `model.constraints.add(sum([model.x[i,j] for i in S for j in S if i != j]) <= len(S)-1)`. -/
def subtourCon (S : List ℕ) : Constraint :=
  ⟨S.flatMap (fun i => ((S.filter (fun j => i ≠ j)).map (fun j => (i, j)))),
   Rel.le, (S.length : Int) - 1⟩

/-- `SubtourSet = list(powerset(N0))[1:-1]`. -/
def SubtourSet (n : ℕ) : List (List ℕ) :=
  pySlice1m1 (powerset (N0 n))

/-- The subtour-elimination constraints the script adds: one for each
`S` in `SubtourSet` with `len(S) >= 2`, in enumeration order. -/
def subtourCons (n : ℕ) : List Constraint :=
  ((SubtourSet n).filter (fun S => 2 ≤ S.length)).map subtourCon

/-- The degree constraints the script adds: all inbound constraints
(one per customer), then all outbound constraints (one per customer). -/
def degreeCons (n : ℕ) : List Constraint :=
  ((Ncust n).map (inboundCon n)) ++ ((Ncust n).map (outboundCon n))

/-- The full `model.constraints` list in the order the script adds to it:
inbound degree, outbound degree, then subtour elimination. -/
def model_constraints (n : ℕ) : List Constraint :=
  degreeCons n ++ subtourCons n

/-- The extraction loop over a solved model (every variable has a loaded
value `v a`):
`for i in model.x: if model.x[i].value > 0: tourRepo.append((i, model.x[i].value))`. -/
def tourRepo (n : ℕ) (v : ℕ × ℕ → ℚ) : List ((ℕ × ℕ) × ℚ) :=
  (arc_IJ n).foldl (fun acc a => if 0 < v a then acc ++ [(a, v a)] else acc) []

/-- The untyped Python exceptions the extraction code can raise. -/
inductive PyExn : Type
  | zeroDivisionError : PyExn
  | typeError : PyExn
  | valueError : PyExn
deriving DecidableEq

/-- The gap computation exactly as the script performs it:
`(UB - LB) / UB` with no zero check; Python raises `ZeroDivisionError`
when the denominator is zero. -/
def solutionGapCalc (ub lb : ℚ) : Except PyExn ℚ :=
  if ub = 0 then Except.error PyExn.zeroDivisionError
  else Except.ok ((ub - lb) / ub)

/-- `model.objective()`: evaluating the objective expression.  A variable
whose value was never loaded (Python `None`) makes the evaluation raise
an untyped `ValueError`; otherwise the weighted sum is returned. -/
def evalObjective (n : ℕ) (M : List (List ℚ)) (vals : ℕ × ℕ → Option ℚ) : Except PyExn ℚ :=
  if ∀ a ∈ arc_IJ n, (vals a).isSome then
    Except.ok (((arc_IJ n).map
      (fun a => ((vals a).getD 0) * ((cCoeff M a.1 a.2).getD 0))).sum)
  else Except.error PyExn.valueError

/-- The extraction loop over a possibly unsolved model: comparing a
`None` value with `0` (`model.x[i].value > 0`) raises an untyped
`TypeError` in Python 3. -/
def extractTour (n : ℕ) (vals : ℕ × ℕ → Option ℚ) : Except PyExn (List ((ℕ × ℕ) × ℚ)) :=
  (arc_IJ n).foldlM (fun acc a =>
    match vals a with
    | none => Except.error PyExn.typeError
    | some q => Except.ok (if 0 < q then acc ++ [(a, q)] else acc)) []

/-- Step 7 of the script, `extract the results`, in source order:
evaluate the objective, collect the positive arcs, compute the gap from
the reported bounds, and return the tuple together with the reported
solve time.  No step guards against missing values or a zero bound. -/
def extractResults (n : ℕ) (M : List (List ℚ)) (vals : ℕ × ℕ → Option ℚ)
    (ub lb time : ℚ) : Except PyExn (ℚ × ℚ × List ((ℕ × ℕ) × ℚ) × ℚ) := do
  let obj ← evalObjective n M vals
  let tour ← extractTour n vals
  let gap ← solutionGapCalc ub lb
  Except.ok (obj, gap, tour, time)

instance instDecEqExcept {ε α : Type} [DecidableEq ε] [DecidableEq α] :
    DecidableEq (Except ε α) := fun a b =>
  match a, b with
  | .error e, .error f =>
      if h : e = f then .isTrue (by rw [h])
      else .isFalse (by intro he; injection he; exact h (by assumption))
  | .error _, .ok _ => .isFalse (by intro h; cases h)
  | .ok _, .error _ => .isFalse (by intro h; cases h)
  | .ok x, .ok y =>
      if h : x = y then .isTrue (by rw [h])
      else .isFalse (by intro he; injection he; exact h (by assumption))

/-! ### Combinatorics of `combinations` and `powerset` -/

theorem combinations_zero {α : Type} (l : List α) : combinations 0 l = [[]] := by
  cases l <;> rfl

theorem combinations_eq_nil_of_lt {α : Type} :
    ∀ (l : List α) (r : ℕ), l.length < r → combinations r l = [] := by
  intro l
  induction l with
  | nil =>
      intro r hr
      match r with
      | r' + 1 => rfl
  | cons x xs ih =>
      intro r hr
      match r with
      | r' + 1 =>
          have h1 : xs.length < r' := by simpa using hr
          have h2 : xs.length < r' + 1 := Nat.lt_succ_of_lt h1
          simp [combinations, ih r' h1, ih (r' + 1) h2]

theorem mem_combinations {α : Type} :
    ∀ (l : List α) (r : ℕ) (t : List α),
      t ∈ combinations r l ↔ t.Sublist l ∧ t.length = r := by
  intro l
  induction l with
  | nil =>
      intro r t
      match r with
      | 0 =>
          simp only [combinations, List.mem_singleton]
          constructor
          · rintro rfl; exact ⟨List.Sublist.refl _, rfl⟩
          · rintro ⟨hs, hl⟩
            exact List.sublist_nil.mp hs
      | r' + 1 =>
          simp only [combinations, List.not_mem_nil, false_iff]
          rintro ⟨hs, hl⟩
          have := List.sublist_nil.mp hs
          subst this
          simp at hl
  | cons x xs ih =>
      intro r t
      match r with
      | 0 =>
          simp only [combinations, List.mem_singleton]
          constructor
          · rintro rfl; exact ⟨List.nil_sublist _, rfl⟩
          · rintro ⟨hs, hl⟩
            exact List.length_eq_zero.mp hl
      | r' + 1 =>
          simp only [combinations, List.mem_append, List.mem_map]
          constructor
          · rintro (⟨u, hu, rfl⟩ | h)
            · rcases (ih r' u).mp hu with ⟨hs, hl⟩
              exact ⟨List.Sublist.cons₂ x hs, by simp [hl]⟩
            · rcases (ih (r' + 1) t).mp h with ⟨hs, hl⟩
              exact ⟨hs.cons x, hl⟩
          · rintro ⟨hs, hl⟩
            rcases List.sublist_cons_iff.mp hs with h | ⟨u, rfl, hu⟩
            · exact Or.inr ((ih (r' + 1) t).mpr ⟨h, hl⟩)
            · exact Or.inl ⟨u, (ih r' u).mpr ⟨hu, by simpa using hl⟩, rfl⟩

theorem length_combinations {α : Type} :
    ∀ (l : List α) (r : ℕ), (combinations r l).length = l.length.choose r := by
  intro l
  induction l with
  | nil =>
      intro r
      match r with
      | 0 => rfl
      | r' + 1 => rfl
  | cons x xs ih =>
      intro r
      match r with
      | 0 => rfl
      | r' + 1 =>
          simp only [combinations, List.length_append, List.length_map, ih r', ih (r' + 1),
            List.length_cons]
          exact (Nat.choose_succ_succ xs.length r').symm

theorem nodup_combinations {α : Type} :
    ∀ (l : List α) (r : ℕ), l.Nodup → (combinations r l).Nodup := by
  intro l
  induction l with
  | nil =>
      intro r _
      match r with
      | 0 => simp [combinations]
      | r' + 1 => simp [combinations]
  | cons x xs ih =>
      intro r hl
      have hx : x ∉ xs := by simp [List.nodup_cons] at hl; exact hl.1
      have hxs : xs.Nodup := by simp [List.nodup_cons] at hl; exact hl.2
      match r with
      | 0 => simp [combinations]
      | r' + 1 =>
          refine List.Nodup.append ?_ (ih (r' + 1) hxs) ?_
          · exact List.Nodup.map_on (by intro a _ b _ h; simpa using h) (ih r' hxs)
          · intro t ht1 ht2
            rcases List.mem_map.mp ht1 with ⟨u, _, rfl⟩
            have hsub : (x :: u).Sublist xs := ((mem_combinations xs (r' + 1) _).mp ht2).1
            exact hx (hsub.subset (List.mem_cons_self x u))

theorem combinations_self {α : Type} :
    ∀ (l : List α), combinations l.length l = [l] := by
  intro l
  induction l with
  | nil => rfl
  | cons x xs ih =>
      have hnil : combinations (xs.length + 1) xs = [] :=
        combinations_eq_nil_of_lt xs (xs.length + 1) (Nat.lt_succ_self _)
      simp [combinations, ih, hnil]

theorem mem_powerset {α : Type} (s t : List α) :
    t ∈ powerset s ↔ t.Sublist s := by
  simp only [powerset, List.mem_flatMap, List.mem_range]
  constructor
  · rintro ⟨r, _, hr⟩
    exact ((mem_combinations s r t).mp hr).1
  · intro hs
    exact ⟨t.length, Nat.lt_succ_of_le hs.length_le,
      (mem_combinations s t.length t).mpr ⟨hs, rfl⟩⟩

theorem list_sum_range_map (f : ℕ → ℕ) :
    ∀ (n : ℕ), ((List.range n).map f).sum = ∑ i ∈ Finset.range n, f i := by
  intro n
  induction n with
  | zero => rfl
  | succ m ih =>
      rw [List.range_succ, List.map_append, List.sum_append, Finset.sum_range_succ, ih]
      simp

theorem length_powerset {α : Type} (s : List α) :
    (powerset s).length = 2 ^ s.length := by
  rw [powerset, List.length_flatMap]
  have h1 : (List.map (List.length ∘ fun r => combinations r s)
      (List.range (s.length + 1))) = (List.range (s.length + 1)).map (s.length.choose ·) := by
    refine List.map_congr_left ?_
    intro r _
    exact length_combinations s r
  rw [h1, list_sum_range_map]
  exact Nat.sum_range_choose s.length

theorem nodup_powerset {α : Type} (s : List α) (hs : s.Nodup) :
    (powerset s).Nodup := by
  rw [powerset, List.nodup_flatMap]
  refine ⟨fun r _ => nodup_combinations s r hs, ?_⟩
  refine (List.pairwise_lt_range (s.length + 1)).imp ?_
  intro r r' hlt t ht1 ht2
  have h1 := ((mem_combinations s r t).mp ht1).2
  have h2 := ((mem_combinations s r' t).mp ht2).2
  omega

/-- The subsets strictly between the empty set and the full set in the
`powerset` enumeration: sizes `1` to `length - 1`, in enumeration order. -/
def middlePart {α : Type} (s : List α) : List (List α) :=
  (List.range' 1 (s.length - 1)).flatMap (fun r => combinations r s)

theorem powerset_decomp {α : Type} (s : List α) (hs : s ≠ []) :
    powerset s = [] :: (middlePart s ++ [s]) := by
  have hlen : 1 ≤ s.length := List.length_pos.mpr hs
  have h1 : List.range (s.length + 1) = 0 :: List.range' 1 s.length := by
    rw [List.range_eq_range']
    rw [show s.length + 1 = s.length + 1 from rfl, List.range'_succ]
  have h2 : List.range' 1 s.length = List.range' 1 (s.length - 1) ++ [s.length] := by
    have : s.length = (s.length - 1) + 1 := by omega
    rw [this, List.range'_concat]
    congr 2
    omega
  rw [powerset, h1, List.flatMap_cons, h2, List.flatMap_append]
  rw [combinations_zero]
  simp only [List.flatMap_cons, List.flatMap_nil, List.append_nil]
  rw [combinations_self]
  rfl

theorem slice_powerset {α : Type} (s : List α) (hs : s ≠ []) :
    pySlice1m1 (powerset s) = middlePart s := by
  rw [powerset_decomp s hs, pySlice1m1]
  simp only [List.drop_succ_cons, List.drop_zero]
  exact List.dropLast_concat

theorem mem_middlePart {α : Type} (s t : List α) :
    t ∈ middlePart s ↔ (t.Sublist s ∧ t ≠ [] ∧ t ≠ s) := by
  simp only [middlePart, List.mem_flatMap, List.mem_range'_1]
  constructor
  · rintro ⟨r, hr, ht⟩
    rcases (mem_combinations s r t).mp ht with ⟨hsub, hlen⟩
    refine ⟨hsub, ?_, ?_⟩
    · intro h; subst h; simp at hlen; omega
    · intro h; subst h; omega
  · rintro ⟨hsub, hne, hns⟩
    refine ⟨t.length, ⟨?_, ?_⟩, (mem_combinations s t.length t).mpr ⟨hsub, rfl⟩⟩
    · have : t.length ≠ 0 := fun h => hne (List.length_eq_zero.mp h)
      omega
    · have hle : t.length ≤ s.length := hsub.length_le
      have : t.length ≠ s.length := fun h => hns (hsub.eq_of_length h)
      omega

theorem map_length_combinations {α : Type} (s : List α) (r : ℕ) :
    (combinations r s).map List.length = List.replicate (s.length.choose r) r := by
  rw [List.eq_replicate_iff]
  refine ⟨by rw [List.length_map]; exact length_combinations s r, ?_⟩
  intro b hb
  rcases List.mem_map.mp hb with ⟨t, ht, rfl⟩
  exact ((mem_combinations s r t).mp ht).2

theorem sorted_length_powerset {α : Type} (s : List α) :
    ((powerset s).map List.length).Sorted (· ≤ ·) := by
  rw [powerset, List.map_flatMap]
  rw [List.flatMap_def, List.Sorted, List.pairwise_flatten]
  constructor
  · intro l hl
    rcases List.mem_map.mp hl with ⟨r, _, rfl⟩
    rw [map_length_combinations]
    rw [List.pairwise_replicate]
    exact Or.inr le_rfl
  · rw [List.pairwise_map]
    refine (List.pairwise_lt_range (s.length + 1)).imp ?_
    intro r r' hlt x hx y hy
    rw [map_length_combinations] at hx hy
    have hxr : x = r := List.eq_of_mem_replicate hx
    have hyr : y = r' := List.eq_of_mem_replicate hy
    omega

/-! ### The node sets and the arc set -/

theorem length_N0 (n : ℕ) : (N0 n).length = n + 1 := by simp [N0]

theorem nodup_N0 (n : ℕ) : (N0 n).Nodup := List.nodup_range (n + 1)

theorem N0_ne_nil (n : ℕ) : N0 n ≠ [] := by
  intro h
  have := congrArg List.length h
  simp [N0] at this

theorem mem_N0 (n i : ℕ) : i ∈ N0 n ↔ i ≤ n := by
  simp [N0, List.mem_range, Nat.lt_succ_iff]

theorem mem_Ncust (n j : ℕ) : j ∈ Ncust n ↔ 1 ≤ j ∧ j < n := by
  rw [Ncust, List.mem_range'_1]
  omega

theorem nodup_Ncust (n : ℕ) : (Ncust n).Nodup := by
  have : List.Pairwise (· < ·) (List.range' 1 (n - 1)) := List.pairwise_lt_range' 1 (n - 1) 1 ?h
  · exact this.imp Nat.ne_of_lt
  · omega

theorem length_filter_ne (l : List ℕ) (hl : l.Nodup) (i : ℕ) (hi : i ∈ l) :
    (l.filter (fun j => i ≠ j)).length = l.length - 1 := by
  have h1 : l.filter (fun j => i ≠ j) = l.erase i := by
    rw [hl.erase_eq_filter i]
    refine (List.filter_congr ?_)
    intro x _
    by_cases h : x = i
    · subst h; simp
    · have h' : i ≠ x := fun hh => h hh.symm
      simp [h, h', bne]
  rw [h1]
  exact List.length_erase_of_mem hi

theorem mem_arc_IJ (n : ℕ) (p : ℕ × ℕ) :
    p ∈ arc_IJ n ↔ (p.1 ≤ n ∧ p.2 ≤ n ∧ p.1 ≠ p.2) := by
  obtain ⟨i, j⟩ := p
  constructor
  · intro h
    rcases List.mem_flatMap.mp h with ⟨a, ha, hmem⟩
    rcases List.mem_map.mp hmem with ⟨b, hb, heq⟩
    rcases List.mem_filter.mp hb with ⟨hbN, hab⟩
    have h1 : a = i := congrArg Prod.fst heq
    have h2 : b = j := congrArg Prod.snd heq
    subst h1
    subst h2
    exact ⟨(mem_N0 n a).mp ha, (mem_N0 n b).mp hbN, by simpa using hab⟩
  · rintro ⟨hi, hj, hne⟩
    refine List.mem_flatMap.mpr ⟨i, (mem_N0 n i).mpr hi, ?_⟩
    exact List.mem_map.mpr ⟨j, List.mem_filter.mpr ⟨(mem_N0 n j).mpr hj, by simpa using hne⟩, rfl⟩

theorem length_arc_IJ (n : ℕ) : (arc_IJ n).length = (n + 1) * n := by
  rw [arc_IJ, List.length_flatMap]
  have h1 : List.map (List.length ∘ fun i => ((N0 n).filter (fun j => i ≠ j)).map (fun j => (i, j)))
      (N0 n) = List.map (fun _ => n) (N0 n) := by
    refine List.map_congr_left ?_
    intro i hi
    simp only [Function.comp_apply, List.length_map]
    have := length_filter_ne (N0 n) (nodup_N0 n) i hi
    rw [this, length_N0]
    omega
  rw [h1]
  have h2 : List.map (fun _ => n) (N0 n) = List.replicate (N0 n).length n := by
    rw [List.eq_replicate_iff]
    constructor
    · simp
    · intro b hb
      rcases List.mem_map.mp hb with ⟨_, _, rfl⟩
      rfl
  rw [h2, List.sum_replicate, length_N0, smul_eq_mul]

theorem nodup_arc_IJ (n : ℕ) : (arc_IJ n).Nodup := by
  rw [arc_IJ, List.nodup_flatMap]
  constructor
  · intro i _
    refine List.Nodup.map_on ?_ ((nodup_N0 n).filter _)
    intro a _ b _ h
    simpa using h
  · refine (List.Pairwise.imp ?_ (?_ : List.Pairwise (· ≠ ·) (N0 n)))
    · intro a b hab t ht1 ht2
      rcases List.mem_map.mp ht1 with ⟨x, _, rfl⟩
      rcases List.mem_map.mp ht2 with ⟨y, _, hy⟩
      exact hab (by simpa using congrArg Prod.fst hy.symm)
    · exact (nodup_N0 n)

/-! ### The subtour-elimination constraint set -/

theorem mem_SubtourSet (n : ℕ) (S : List ℕ) :
    S ∈ SubtourSet n ↔ (S.Sublist (N0 n) ∧ S ≠ [] ∧ S ≠ N0 n) := by
  rw [SubtourSet, slice_powerset (N0 n) (N0_ne_nil n)]
  exact mem_middlePart (N0 n) S

theorem nodup_SubtourSet (n : ℕ) : (SubtourSet n).Nodup := by
  have hsub : (SubtourSet n).Sublist (powerset (N0 n)) := by
    rw [SubtourSet, pySlice1m1]
    exact (List.dropLast_sublist _).trans (List.drop_sublist 1 _)
  exact (nodup_powerset (N0 n) (nodup_N0 n)).sublist hsub

/-- The list of subsets the script actually generates constraints for. -/
def keptSubsets (n : ℕ) : List (List ℕ) :=
  (SubtourSet n).filter (fun S => 2 ≤ S.length)

theorem mem_keptSubsets (n : ℕ) (S : List ℕ) :
    S ∈ keptSubsets n ↔ (S.Sublist (N0 n) ∧ 2 ≤ S.length ∧ S.length < n + 1) := by
  rw [keptSubsets, List.mem_filter]
  rw [mem_SubtourSet]
  constructor
  · rintro ⟨⟨hsub, _, hne⟩, hlen⟩
    have hlen' : 2 ≤ S.length := by simpa using hlen
    refine ⟨hsub, hlen', ?_⟩
    have h1 : S.length ≤ (N0 n).length := hsub.length_le
    rw [length_N0] at h1
    rcases Nat.lt_or_ge S.length (n + 1) with h | h
    · exact h
    · exfalso
      have : S.length = (N0 n).length := by rw [length_N0]; omega
      exact hne (hsub.eq_of_length this)
  · rintro ⟨hsub, h2, hlt⟩
    refine ⟨⟨hsub, ?_, ?_⟩, by simpa using h2⟩
    · intro h; subst h; simp at h2
    · intro h
      subst h
      rw [length_N0] at hlt
      omega

theorem nodup_keptSubsets (n : ℕ) : (keptSubsets n).Nodup :=
  (nodup_SubtourSet n).filter _

theorem subtourCons_eq (n : ℕ) : subtourCons n = (keptSubsets n).map subtourCon := rfl

theorem flatMap_replicate_inj (k : ℕ) (hk : 1 ≤ k) :
    ∀ (S T : List ℕ),
      S.flatMap (fun i => List.replicate k i) = T.flatMap (fun i => List.replicate k i) →
      S = T := by
  intro S
  induction S with
  | nil =>
      intro T h
      cases T with
      | nil => rfl
      | cons b T' =>
          exfalso
          rw [List.flatMap_nil, List.flatMap_cons] at h
          match k, hk with
          | k' + 1, _ =>
              rw [List.replicate_succ] at h
              simp at h
  | cons a S' ih =>
      intro T h
      cases T with
      | nil =>
          exfalso
          rw [List.flatMap_nil, List.flatMap_cons] at h
          match k, hk with
          | k' + 1, _ =>
              rw [List.replicate_succ] at h
              simp at h
      | cons b T' =>
          rw [List.flatMap_cons, List.flatMap_cons] at h
          match k, hk with
          | k' + 1, _ =>
              simp only [List.replicate_succ, List.cons_append] at h
              have hab : a = b := (List.cons.injEq _ _ _ _ ▸ h).1
              subst hab
              have htail := (List.cons.injEq _ _ _ _ ▸ h).2
              have := List.append_cancel_left htail
              rw [ih T' this]

theorem map_fst_subtour_arcs (S : List ℕ) (hS : S.Nodup) :
    (subtourCon S).arcs.map Prod.fst
      = S.flatMap (fun i => List.replicate (S.length - 1) i) := by
  show (S.flatMap (fun i => ((S.filter (fun j => i ≠ j)).map (fun j => (i, j))))).map Prod.fst
      = S.flatMap (fun i => List.replicate (S.length - 1) i)
  rw [List.map_flatMap]
  rw [List.flatMap_def, List.flatMap_def]
  congr 1
  refine List.map_congr_left ?_
  intro i hi
  rw [List.map_map]
  rw [List.eq_replicate_iff]
  constructor
  · rw [List.length_map]
    exact length_filter_ne S hS i hi
  · intro b hb
    rcases List.mem_map.mp hb with ⟨x, _, rfl⟩
    rfl

theorem subtourCon_inj (S T : List ℕ) (hS : S.Nodup) (hT : T.Nodup)
    (h2 : 2 ≤ S.length) (h : subtourCon S = subtourCon T) : S = T := by
  have hrhs : (subtourCon S).rhs = (subtourCon T).rhs := congrArg Constraint.rhs h
  have hlen : S.length = T.length := by
    show S.length = T.length
    have : (S.length : Int) - 1 = (T.length : Int) - 1 := hrhs
    omega
  have harcs : (subtourCon S).arcs = (subtourCon T).arcs := congrArg Constraint.arcs h
  have h1 := map_fst_subtour_arcs S hS
  have h2' := map_fst_subtour_arcs T hT
  rw [harcs, h2'] at h1
  rw [← hlen] at h1
  exact flatMap_replicate_inj (S.length - 1) (by omega) S T h1.symm

theorem nodup_subtourCons (n : ℕ) : (subtourCons n).Nodup := by
  rw [subtourCons_eq]
  refine List.Nodup.map_on ?_ (nodup_keptSubsets n)
  intro S hS T hT h
  rcases (mem_keptSubsets n S).mp hS with ⟨hSsub, hS2, _⟩
  rcases (mem_keptSubsets n T).mp hT with ⟨hTsub, _, _⟩
  exact subtourCon_inj S T (hSsub.nodup (nodup_N0 n)) (hTsub.nodup (nodup_N0 n)) hS2 h

/-! ### Counting the subtour-elimination constraints -/

theorem subtourCons_length (n : ℕ) (hn : 1 ≤ n) :
    (subtourCons n).length + (n + 3) = 2 ^ (n + 1) := by
  rw [subtourCons_eq, List.length_map]
  unfold keptSubsets SubtourSet
  rw [slice_powerset (N0 n) (N0_ne_nil n)]
  unfold middlePart
  rw [List.filter_flatMap, List.length_flatMap, length_N0,
    show n + 1 - 1 = n by omega]
  have hsplit : List.range' 1 n = 1 :: List.range' 2 (n - 1) := by
    conv_lhs => rw [show n = (n - 1) + 1 by omega]
    rw [List.range'_succ]
  rw [hsplit, List.map_cons, List.sum_cons]
  have hch1 : (List.length ∘ fun r =>
      List.filter (fun S => decide (2 ≤ S.length)) (combinations r (N0 n))) 1 = 0 := by
    simp only [Function.comp_apply]
    rw [List.length_eq_zero, List.filter_eq_nil_iff]
    intro S hS
    have hl := ((mem_combinations _ 1 S).mp hS).2
    rw [hl]
    decide
  rw [hch1]
  have hmid : List.map (List.length ∘ fun r =>
        List.filter (fun S => decide (2 ≤ S.length)) (combinations r (N0 n)))
        (List.range' 2 (n - 1))
      = List.map (fun r => (n + 1).choose r) (List.range' 2 (n - 1)) := by
    refine List.map_congr_left ?_
    intro r hr
    have hr2 : 2 ≤ r := (List.mem_range'_1.mp hr).1
    simp only [Function.comp_apply]
    have hfe : List.filter (fun S => decide (2 ≤ S.length)) (combinations r (N0 n))
        = combinations r (N0 n) := by
      rw [List.filter_eq_self]
      intro S hS
      have hl := ((mem_combinations _ r S).mp hS).2
      rw [hl]
      exact decide_eq_true hr2
    rw [hfe, length_combinations, length_N0]
  rw [hmid]
  have hall : ((List.range (n + 2)).map (fun r => (n + 1).choose r)).sum = 2 ^ (n + 1) := by
    rw [list_sum_range_map]
    exact Nat.sum_range_choose (n + 1)
  have hdecomp : List.range (n + 2) = 0 :: 1 :: (List.range' 2 (n - 1) ++ [n + 1]) := by
    rw [List.range_eq_range']
    rw [show n + 2 = (n + 1) + 1 by omega, List.range'_succ]
    congr 1
    rw [show n + 1 = n + 1 from rfl, List.range'_succ]
    congr 1
    conv_lhs => rw [show n = (n - 1) + 1 by omega]
    rw [List.range'_concat]
    congr 1
    congr 1
    omega
  rw [hdecomp] at hall
  simp only [List.map_cons, List.sum_cons, List.map_append, List.sum_append,
    List.map_cons, List.map_nil, List.sum_cons, List.sum_nil,
    Nat.choose_zero_right, Nat.choose_one_right, Nat.choose_self] at hall
  omega

/-! ### The degree constraints -/

theorem mem_inbound_arcs (n j a b : ℕ) :
    (a, b) ∈ (inboundCon n j).arcs ↔ (b = j ∧ a ≤ n ∧ a ≠ j) := by
  show (a, b) ∈ ((N0 n).filter (fun i => i ≠ j)).map (fun i => (i, j)) ↔ _
  constructor
  · intro h
    rcases List.mem_map.mp h with ⟨i, hi, heq⟩
    rcases List.mem_filter.mp hi with ⟨hiN, hij⟩
    have h1 : i = a := congrArg Prod.fst heq
    have h2 : j = b := congrArg Prod.snd heq
    subst h1
    subst h2
    exact ⟨rfl, (mem_N0 n i).mp hiN, by simpa using hij⟩
  · rintro ⟨rfl, h1, hne⟩
    exact List.mem_map.mpr ⟨a, List.mem_filter.mpr ⟨(mem_N0 n a).mpr h1, by simpa using hne⟩, rfl⟩

theorem mem_outbound_arcs (n i a b : ℕ) :
    (a, b) ∈ (outboundCon n i).arcs ↔ (a = i ∧ b ≤ n ∧ i ≠ b) := by
  show (a, b) ∈ ((N0 n).filter (fun j => i ≠ j)).map (fun j => (i, j)) ↔ _
  constructor
  · intro h
    rcases List.mem_map.mp h with ⟨j, hj, heq⟩
    rcases List.mem_filter.mp hj with ⟨hjN, hij⟩
    have h1 : i = a := congrArg Prod.fst heq
    have h2 : j = b := congrArg Prod.snd heq
    subst h1
    subst h2
    exact ⟨rfl, (mem_N0 n j).mp hjN, by simpa using hij⟩
  · rintro ⟨rfl, h1, hne⟩
    exact List.mem_map.mpr ⟨b, List.mem_filter.mpr ⟨(mem_N0 n b).mpr h1, by simpa using hne⟩, rfl⟩

theorem inbound_inj (n j j' : ℕ) (hj : 1 ≤ j) (h : inboundCon n j = inboundCon n j') :
    j = j' := by
  have harcs : (inboundCon n j).arcs = (inboundCon n j').arcs := congrArg Constraint.arcs h
  have hmem : (0, j) ∈ (inboundCon n j).arcs :=
    (mem_inbound_arcs n j 0 j).mpr ⟨rfl, Nat.zero_le n, by omega⟩
  rw [harcs] at hmem
  exact ((mem_inbound_arcs n j' 0 j).mp hmem).1

theorem outbound_inj (n i i' : ℕ) (hi : 1 ≤ i) (h : outboundCon n i = outboundCon n i') :
    i = i' := by
  have harcs : (outboundCon n i).arcs = (outboundCon n i').arcs := congrArg Constraint.arcs h
  have hmem : (i, 0) ∈ (outboundCon n i).arcs :=
    (mem_outbound_arcs n i i 0).mpr ⟨rfl, Nat.zero_le n, by omega⟩
  rw [harcs] at hmem
  exact ((mem_outbound_arcs n i' i 0).mp hmem).1

theorem eq_outbound_of_inbound (n j i : ℕ) (hj : 1 ≤ j)
    (h : inboundCon n j = outboundCon n i) : i = 0 := by
  have harcs : (inboundCon n j).arcs = (outboundCon n i).arcs := congrArg Constraint.arcs h
  have hmem : (0, j) ∈ (inboundCon n j).arcs :=
    (mem_inbound_arcs n j 0 j).mpr ⟨rfl, Nat.zero_le n, by omega⟩
  rw [harcs] at hmem
  have := ((mem_outbound_arcs n i 0 j).mp hmem).1
  omega

theorem inbound0_ne_outbound (n i : ℕ) (hi : 1 ≤ i) (hin : i < n) :
    inboundCon n 0 ≠ outboundCon n i := by
  intro h
  have harcs : (inboundCon n 0).arcs = (outboundCon n i).arcs := congrArg Constraint.arcs h
  have hk0 : (if i = 1 then 2 else 1) ≠ 0 := by split <;> omega
  have hki : i ≠ (if i = 1 then 2 else 1) := by split <;> omega
  have hkn : (if i = 1 then 2 else 1) ≤ n := by split <;> omega
  have hmem : (i, if i = 1 then 2 else 1) ∈ (outboundCon n i).arcs :=
    (mem_outbound_arcs n i i _).mpr ⟨rfl, hkn, hki⟩
  rw [← harcs] at hmem
  exact hk0 ((mem_inbound_arcs n 0 i _).mp hmem).1

theorem outbound0_ne_inbound (n j : ℕ) (hj : 1 ≤ j) (hjn : j < n) :
    outboundCon n 0 ≠ inboundCon n j := by
  intro h
  have harcs : (outboundCon n 0).arcs = (inboundCon n j).arcs := congrArg Constraint.arcs h
  have hk0 : (0 : ℕ) ≠ (if j = 1 then 2 else 1) := by split <;> omega
  have hkj : (if j = 1 then 2 else 1) ≠ j := by split <;> omega
  have hkn : (if j = 1 then 2 else 1) ≤ n := by split <;> omega
  have hmem : (0, if j = 1 then 2 else 1) ∈ (outboundCon n 0).arcs :=
    (mem_outbound_arcs n 0 0 _).mpr ⟨rfl, hkn, hk0⟩
  rw [harcs] at hmem
  exact hkj ((mem_inbound_arcs n j 0 _).mp hmem).1

theorem subtour_rel (n : ℕ) (con : Constraint) (h : con ∈ subtourCons n) :
    con.rel = Rel.le := by
  rw [subtourCons_eq] at h
  rcases List.mem_map.mp h with ⟨S, _, rfl⟩
  rfl

theorem nodup_inbound_list (n : ℕ) : ((Ncust n).map (inboundCon n)).Nodup := by
  refine List.Nodup.map_on ?_ (nodup_Ncust n)
  intro j hj j' _ h
  exact inbound_inj n j j' ((mem_Ncust n j).mp hj).1 h

theorem nodup_outbound_list (n : ℕ) : ((Ncust n).map (outboundCon n)).Nodup := by
  refine List.Nodup.map_on ?_ (nodup_Ncust n)
  intro i hi i' _ h
  exact outbound_inj n i i' ((mem_Ncust n i).mp hi).1 h

theorem count_inbound (n j : ℕ) (hj : j ∈ Ncust n) :
    (model_constraints n).count (inboundCon n j) = 1 := by
  obtain ⟨hj1, hjn⟩ := (mem_Ncust n j).mp hj
  rw [model_constraints, degreeCons, List.append_assoc, List.count_append, List.count_append]
  have h1 : ((Ncust n).map (inboundCon n)).count (inboundCon n j) = 1 :=
    List.count_eq_one_of_mem (nodup_inbound_list n) (List.mem_map_of_mem _ hj)
  have h2 : ((Ncust n).map (outboundCon n)).count (inboundCon n j) = 0 := by
    refine List.count_eq_zero_of_not_mem ?_
    intro hmem
    rcases List.mem_map.mp hmem with ⟨i, hi, heq⟩
    have hi0 := eq_outbound_of_inbound n j i hj1 heq.symm
    have := ((mem_Ncust n i).mp hi).1
    omega
  have h3 : (subtourCons n).count (inboundCon n j) = 0 := by
    refine List.count_eq_zero_of_not_mem ?_
    intro hmem
    exact Rel.noConfusion (subtour_rel n _ hmem)
  rw [h1, h2, h3]

theorem count_outbound (n i : ℕ) (hi : i ∈ Ncust n) :
    (model_constraints n).count (outboundCon n i) = 1 := by
  obtain ⟨hi1, hin⟩ := (mem_Ncust n i).mp hi
  rw [model_constraints, degreeCons, List.append_assoc, List.count_append, List.count_append]
  have h1 : ((Ncust n).map (inboundCon n)).count (outboundCon n i) = 0 := by
    refine List.count_eq_zero_of_not_mem ?_
    intro hmem
    rcases List.mem_map.mp hmem with ⟨j, hj, heq⟩
    have := eq_outbound_of_inbound n j i ((mem_Ncust n j).mp hj).1 heq
    omega
  have h2 : ((Ncust n).map (outboundCon n)).count (outboundCon n i) = 1 :=
    List.count_eq_one_of_mem (nodup_outbound_list n) (List.mem_map_of_mem _ hi)
  have h3 : (subtourCons n).count (outboundCon n i) = 0 := by
    refine List.count_eq_zero_of_not_mem ?_
    intro hmem
    exact Rel.noConfusion (subtour_rel n _ hmem)
  rw [h1, h2, h3]

theorem inbound0_not_mem (n : ℕ) : inboundCon n 0 ∉ model_constraints n := by
  intro h
  rw [model_constraints, List.mem_append] at h
  rcases h with h | h
  · rw [degreeCons, List.mem_append] at h
    rcases h with h | h
    · rcases List.mem_map.mp h with ⟨j, hj, heq⟩
      have h0 := inbound_inj n j 0 ((mem_Ncust n j).mp hj).1 heq
      have := ((mem_Ncust n j).mp hj).1
      omega
    · rcases List.mem_map.mp h with ⟨i, hi, heq⟩
      obtain ⟨hi1, hin⟩ := (mem_Ncust n i).mp hi
      exact inbound0_ne_outbound n i hi1 hin heq.symm
  · exact Rel.noConfusion (subtour_rel n _ h)

theorem outbound0_not_mem (n : ℕ) : outboundCon n 0 ∉ model_constraints n := by
  intro h
  rw [model_constraints, List.mem_append] at h
  rcases h with h | h
  · rw [degreeCons, List.mem_append] at h
    rcases h with h | h
    · rcases List.mem_map.mp h with ⟨j, hj, heq⟩
      obtain ⟨hj1, hjn⟩ := (mem_Ncust n j).mp hj
      exact outbound0_ne_inbound n j hj1 hjn heq.symm
    · rcases List.mem_map.mp h with ⟨i, hi, heq⟩
      have h0 := outbound_inj n i 0 ((mem_Ncust n i).mp hi).1 heq
      have := ((mem_Ncust n i).mp hi).1
      omega
  · exact Rel.noConfusion (subtour_rel n _ h)

theorem degreeCons_length (n : ℕ) : (degreeCons n).length = 2 * (Ncust n).length := by
  rw [degreeCons, List.length_append, List.length_map, List.length_map]
  omega

theorem countP_rel_eq (n : ℕ) :
    (model_constraints n).countP (fun con => con.rel == Rel.eq) = 2 * (Ncust n).length := by
  rw [model_constraints, List.countP_append]
  have h1 : (degreeCons n).countP (fun con => con.rel == Rel.eq) = (degreeCons n).length := by
    rw [List.countP_eq_length]
    intro con hcon
    rw [degreeCons, List.mem_append] at hcon
    rcases hcon with h | h
    · rcases List.mem_map.mp h with ⟨j, _, rfl⟩
      rfl
    · rcases List.mem_map.mp h with ⟨i, _, rfl⟩
      rfl
  have h2 : (subtourCons n).countP (fun con => con.rel == Rel.eq) = 0 := by
    rw [List.countP_eq_zero]
    intro con hcon
    rw [subtour_rel n con hcon]
    decide
  rw [h1, h2, degreeCons_length n]
  omega

/-! ### Cost lookup with Python indexing -/

theorem pyGet_mem {α : Type} (xs : List α) (k : Int) (a : α) (h : pyGet xs k = some a) :
    a ∈ xs := by
  rw [pyGet] at h
  split at h
  · split at h
    · exact List.get?_mem h
    · exact Option.noConfusion h
  · exact List.get?_mem h

theorem pyGet_coe_sub_one {α : Type} (xs : List α) (i : ℕ) (h1 : 1 ≤ xs.length)
    (hi : i ≤ xs.length) :
    pyGet xs ((i : Int) - 1) = xs.get? ((i + xs.length - 1) % xs.length) := by
  rw [pyGet]
  rcases Nat.eq_zero_or_pos i with rfl | hpos
  · rw [if_pos (by norm_num)]
    rw [if_pos (by omega)]
    rw [Nat.mod_eq_of_lt (by omega)]
    congr 1
    omega
  · rw [if_neg (by omega)]
    have harg : (i + xs.length - 1) % xs.length = i - 1 := by
      rw [show i + xs.length - 1 = (i - 1) + xs.length by omega, Nat.add_mod_right,
        Nat.mod_eq_of_lt (by omega)]
    rw [harg]
    congr 1
    omega

theorem cCoeff_eq (n : ℕ) (M : List (List ℚ)) (hn : 1 ≤ n) (hM : M.length = n)
    (hsq : ∀ row ∈ M, row.length = n) (i j : ℕ) (hi : i ≤ n) (hj : j ≤ n) :
    cCoeff M i j = (M.get? ((i + n - 1) % n)).bind (fun row => row.get? ((j + n - 1) % n)) := by
  have h1 : pyGet M ((i : Int) - 1) = M.get? ((i + n - 1) % n) := by
    have h := pyGet_coe_sub_one M i (by omega) (by omega)
    rwa [hM] at h
  rw [cCoeff, h1]
  cases hrow : M.get? ((i + n - 1) % n) with
  | none => rfl
  | some row =>
      have hrlen : row.length = n := hsq row (List.get?_mem hrow)
      have h2 := pyGet_coe_sub_one row j (by omega) (by omega)
      rw [hrlen] at h2
      exact h2

theorem cCoeff_row_alias (n : ℕ) (M : List (List ℚ)) (hn : 1 ≤ n) (hM : M.length = n)
    (k : ℕ) : cCoeff M 0 k = cCoeff M n k := by
  have h0 := pyGet_coe_sub_one M 0 (by omega) (by omega)
  have hn' := pyGet_coe_sub_one M n (by omega) (by omega)
  rw [cCoeff, cCoeff, h0, hn']
  have harg : (0 + M.length - 1) % M.length = (n + M.length - 1) % M.length := by
    rw [Nat.mod_eq_of_lt (by omega), hM,
      show n + n - 1 = (n - 1) + n by omega, Nat.add_mod_right,
      Nat.mod_eq_of_lt (by omega)]
    omega
  rw [harg]

theorem cCoeff_col_alias (n : ℕ) (M : List (List ℚ)) (hn : 1 ≤ n) (hM : M.length = n)
    (hsq : ∀ row ∈ M, row.length = n) (k : ℕ) : cCoeff M k 0 = cCoeff M k n := by
  rw [cCoeff, cCoeff]
  cases hrow : pyGet M ((k : Int) - 1) with
  | none => rfl
  | some row =>
      have hrlen : row.length = n := hsq row (pyGet_mem M _ row hrow)
      show pyGet row (((0 : ℕ) : Int) - 1) = pyGet row (((n : ℕ) : Int) - 1)
      have h0 := pyGet_coe_sub_one row 0 (by omega) (by omega)
      have hn' := pyGet_coe_sub_one row n (by omega) (by omega : n ≤ row.length)
      rw [h0, hn']
      congr 1
      rw [Nat.mod_eq_of_lt (by omega), hrlen,
        show n + n - 1 = (n - 1) + n by omega, Nat.add_mod_right,
        Nat.mod_eq_of_lt (by omega)]
      omega

/-! ### Result extraction -/

theorem tourRepo_eq (n : ℕ) (v : ℕ × ℕ → ℚ) :
    tourRepo n v = ((arc_IJ n).filter (fun a => decide (0 < v a))).map (fun a => (a, v a)) := by
  rw [tourRepo]
  suffices h : ∀ (l : List (ℕ × ℕ)) (acc : List ((ℕ × ℕ) × ℚ)),
      l.foldl (fun acc a => if 0 < v a then acc ++ [(a, v a)] else acc) acc
        = acc ++ (l.filter (fun a => decide (0 < v a))).map (fun a => (a, v a)) by
    simpa using h (arc_IJ n) []
  intro l
  induction l with
  | nil => intro acc; simp
  | cons a l ih =>
      intro acc
      rw [List.foldl_cons]
      by_cases hpos : 0 < v a
      · rw [if_pos hpos, ih, List.filter_cons, if_pos (by simpa using hpos), List.map_cons,
          List.append_assoc]
        rfl
      · rw [if_neg hpos, ih, List.filter_cons, if_neg (by simpa using hpos)]

theorem mem_tourRepo (n : ℕ) (v : ℕ × ℕ → ℚ) (p : (ℕ × ℕ) × ℚ) :
    p ∈ tourRepo n v ↔ (p.1 ∈ arc_IJ n ∧ 0 < v p.1 ∧ p.2 = v p.1) := by
  rw [tourRepo_eq]
  constructor
  · intro h
    rcases List.mem_map.mp h with ⟨a, ha, rfl⟩
    rcases List.mem_filter.mp ha with ⟨haarc, hapos⟩
    exact ⟨haarc, by simpa using hapos, rfl⟩
  · obtain ⟨a, q⟩ := p
    rintro ⟨h1, h2, h3⟩
    simp only at h1 h2 h3
    subst h3
    exact List.mem_map_of_mem _ (List.mem_filter.mpr ⟨h1, by simpa using h2⟩)

theorem tourRepo_fst_sublist (n : ℕ) (v : ℕ × ℕ → ℚ) :
    ((tourRepo n v).map Prod.fst).Sublist (arc_IJ n) := by
  rw [tourRepo_eq, List.map_map]
  have h : (Prod.fst ∘ fun a => (a, v a)) = fun a : ℕ × ℕ => a := rfl
  rw [h, List.map_id']
  exact List.filter_sublist _

theorem extractTour_of_solved (n : ℕ) (v : ℕ × ℕ → ℚ) :
    extractTour n (fun a => some (v a)) = Except.ok (tourRepo n v) := by
  rw [extractTour, tourRepo]
  suffices h : ∀ (l : List (ℕ × ℕ)) (acc : List ((ℕ × ℕ) × ℚ)),
      (l.foldlM (fun acc a =>
          match (fun a => some (v a)) a with
          | none => Except.error PyExn.typeError
          | some q => Except.ok (if 0 < q then acc ++ [(a, q)] else acc)) acc
        : Except PyExn (List ((ℕ × ℕ) × ℚ)))
        = Except.ok (l.foldl (fun acc a => if 0 < v a then acc ++ [(a, v a)] else acc) acc) by
    exact h (arc_IJ n) []
  intro l
  induction l with
  | nil => intro acc; rfl
  | cons a l ih =>
      intro acc
      exact ih (if 0 < v a then acc ++ [(a, v a)] else acc)

/-! ### Claim theorems -/

/-- Claim C1: for every node count `n`, the builder adds exactly one
subtour-elimination constraint `sum x[i,j] <= |S| - 1` for every subset
`S` of `N0` with `2 <= |S| < |N0|` (subsets are represented, as the
program represents them, by subsequences of the ordered node list `N0`),
and adds no subtour constraint for any other subset (empty, singleton,
or the full node set). -/
theorem claim_C1_subtour_constraints (n : ℕ) (S : List ℕ) (hS : S.Sublist (N0 n)) :
    (2 ≤ S.length ∧ S.length < (N0 n).length →
      (subtourCons n).count (subtourCon S) = 1)
    ∧ (¬(2 ≤ S.length ∧ S.length < (N0 n).length) →
      subtourCon S ∉ subtourCons n) := by
  constructor
  · rintro ⟨h2, hlt⟩
    have hmem : S ∈ keptSubsets n :=
      (mem_keptSubsets n S).mpr ⟨hS, h2, by rwa [length_N0] at hlt⟩
    have hmem' : subtourCon S ∈ subtourCons n := by
      rw [subtourCons_eq]
      exact List.mem_map_of_mem _ hmem
    exact List.count_eq_one_of_mem (nodup_subtourCons n) hmem'
  · intro hne hmem
    rw [subtourCons_eq] at hmem
    rcases List.mem_map.mp hmem with ⟨T, hT, heq⟩
    rcases (mem_keptSubsets n T).mp hT with ⟨_, hT2, hTlt⟩
    have hlen : S.length = T.length := by
      have h' : (T.length : Int) - 1 = (S.length : Int) - 1 := congrArg Constraint.rhs heq
      omega
    refine hne ⟨by omega, ?_⟩
    rw [length_N0]
    omega

theorem claim_C1_witness : (subtourCons 3).count (subtourCon [0, 1]) = 1 :=
  (claim_C1_subtour_constraints 3 [0, 1] (by decide)).1 (by decide)

/-- Claim C2, counterexample to the spec's example: for `n0 = 4`
(that is, `n = 3`) the script generates 10 subtour-elimination
constraints, not 11. -/
theorem claim_C2_counterexample : ¬ ((subtourCons 3).length = 11) := by decide

/-- Claim C2 as amended: for every `n >= 3` the number of
subtour-elimination constraints is `2^(n0) - 2 - n0` with `n0 = n + 1`;
at `n0 = 4` this is 10, not the 11 the spec's example states. -/
theorem claim_C2_subtour_count (n : ℕ) (hn : 3 ≤ n) :
    (subtourCons n).length = 2 ^ (n + 1) - 2 - (n + 1) := by
  have h := subtourCons_length n (by omega)
  omega

theorem claim_C2_witness : (subtourCons 3).length = 2 ^ (3 + 1) - 2 - (3 + 1) :=
  claim_C2_subtour_count 3 (by norm_num)

/-- Claim C3: the variable index set `arc_IJ` has exactly
`n0 * (n0 - 1)` entries with `n0 = n + 1`, contains each ordered pair
`(i, j)` with `i, j <= n` and `i ≠ j` exactly once (it is
duplicate-free), and contains no self-loop. -/
theorem claim_C3_decision_variables (n : ℕ) :
    (arc_IJ n).length = (n + 1) * ((n + 1) - 1)
    ∧ (∀ p : ℕ × ℕ, p ∈ arc_IJ n ↔ (p.1 ≤ n ∧ p.2 ≤ n ∧ p.1 ≠ p.2))
    ∧ (arc_IJ n).Nodup := by
  refine ⟨?_, mem_arc_IJ n, nodup_arc_IJ n⟩
  rw [length_arc_IJ, Nat.add_sub_cancel]

/-- Claim C4: the builder generates exactly `2 * |N|` degree
constraints where `N = {1..n-1}`; each customer node gets exactly one
inbound and one outbound degree constraint in the full constraint list,
the depot gets none, and the equality constraints of the model are
exactly the `2 * |N|` degree constraints. -/
theorem claim_C4_degree_constraints (n : ℕ) :
    (degreeCons n).length = 2 * (Ncust n).length
    ∧ (∀ j : ℕ, j ∈ Ncust n ↔ (1 ≤ j ∧ j < n))
    ∧ (∀ j ∈ Ncust n,
        (model_constraints n).count (inboundCon n j) = 1
        ∧ (model_constraints n).count (outboundCon n j) = 1)
    ∧ inboundCon n 0 ∉ model_constraints n
    ∧ outboundCon n 0 ∉ model_constraints n
    ∧ (model_constraints n).countP (fun con => con.rel == Rel.eq) = 2 * (Ncust n).length :=
  ⟨degreeCons_length n, fun j => mem_Ncust n j,
    fun j hj => ⟨count_inbound n j hj, count_outbound n j hj⟩,
    inbound0_not_mem n, outbound0_not_mem n, countP_rel_eq n⟩

theorem claim_C4_witness :
    (model_constraints 3).count (inboundCon 3 1) = 1
    ∧ (model_constraints 3).count (outboundCon 3 1) = 1 :=
  (claim_C4_degree_constraints 3).2.2.1 1 (by decide)

/-- Claim C5: for every arc of the model, the objective coefficient is
`costMatrix[i-1][j-1]` with Python wrap-around, i.e. the physical entry
at row `(i + n - 1) % n` and column `(j + n - 1) % n`; consequently node
`0` and node `n` alias the same physical row and column: whenever both
arcs exist, `c[(0,k)] = c[(n,k)]` and `c[(k,0)] = c[(k,n)]`. -/
theorem claim_C5_cost_lookup (n : ℕ) (M : List (List ℚ)) (hn : 1 ≤ n)
    (hM : M.length = n) (hsq : ∀ row ∈ M, row.length = n) :
    (∀ p : ℕ × ℕ, p ∈ arc_IJ n →
        cCoeff M p.1 p.2
          = (M.get? ((p.1 + n - 1) % n)).bind (fun row => row.get? ((p.2 + n - 1) % n)))
    ∧ (∀ k : ℕ, k ≤ n → k ≠ 0 → k ≠ n →
        (cCoeff M 0 k = cCoeff M n k ∧ cCoeff M k 0 = cCoeff M k n)) := by
  constructor
  · intro p hp
    rcases (mem_arc_IJ n p).mp hp with ⟨h1, h2, _⟩
    exact cCoeff_eq n M hn hM hsq p.1 p.2 h1 h2
  · intro k hk _ _
    exact ⟨cCoeff_row_alias n M hn hM k, cCoeff_col_alias n M hn hM hsq k⟩

theorem claim_C5_witness :
    cCoeff [[0, 1], [2, 3]] 0 1 = cCoeff [[0, 1], [2, 3]] 2 1
    ∧ cCoeff [[0, 1], [2, 3]] 1 0 = cCoeff [[0, 1], [2, 3]] 1 2 :=
  (claim_C5_cost_lookup 2 [[0, 1], [2, 3]] (by norm_num) (by decide)
    (by decide)).2 1 (by norm_num) (by norm_num) (by norm_num)

/-- Claim C6: on a duplicate-free input of length `n`, `powerset`
produces exactly `2^n` subsets, each a subsequence of the input
(preserving its relative order), including the empty and the full
subset, with no subset repeated; and `powerset` of the empty sequence is
exactly the one-element sequence holding the empty tuple. -/
theorem claim_C6_powerset_contract {α : Type} (s : List α) (hs : s.Nodup) :
    (powerset s).length = 2 ^ s.length
    ∧ (∀ t : List α, t ∈ powerset s ↔ t.Sublist s)
    ∧ ([] : List α) ∈ powerset s
    ∧ s ∈ powerset s
    ∧ (powerset s).Nodup
    ∧ powerset ([] : List α) = [[]] := by
  refine ⟨length_powerset s, fun t => mem_powerset s t, ?_, ?_, nodup_powerset s hs, ?_⟩
  · exact (mem_powerset s []).mpr (List.nil_sublist s)
  · exact (mem_powerset s s).mpr (List.Sublist.refl s)
  · rfl

theorem claim_C6_witness :
    (powerset [1, 2, 3]).length = 2 ^ ([1, 2, 3] : List ℕ).length :=
  (claim_C6_powerset_contract [1, 2, 3] (by decide)).1

/-- Claim C7: the gap computation `(UB - LB) / UB` is not guarded: at
`UB = 0` it raises the untyped Python `ZeroDivisionError` (the division
is attempted, no typed `DivisionByZeroGap` error exists in the code);
for `UB ≠ 0` it returns `(UB - LB) / UB`. -/
theorem claim_C7_gap_unguarded :
    solutionGapCalc 0 0 = Except.error PyExn.zeroDivisionError
    ∧ (∀ ub lb : ℚ, ub ≠ 0 → solutionGapCalc ub lb = Except.ok ((ub - lb) / ub)) := by
  constructor
  · rfl
  · intro ub lb h
    rw [solutionGapCalc, if_neg h]

theorem claim_C7_witness : solutionGapCalc 2 1 = Except.ok ((2 - 1) / 2) :=
  claim_C7_gap_unguarded.2 2 1 (by norm_num)

/-- Claim C8: on a solved model, `tourRepo` holds exactly the pairs
`(arc, value)` for the arcs with strictly positive value (zero excluded,
fractional positive included), in the fixed iteration order of the
variable index set `arc_IJ`; and the extraction loop over loaded values
returns exactly this list. -/
theorem claim_C8_tour_extraction (n : ℕ) (v : ℕ × ℕ → ℚ) :
    (∀ p : (ℕ × ℕ) × ℚ, p ∈ tourRepo n v ↔ (p.1 ∈ arc_IJ n ∧ 0 < v p.1 ∧ p.2 = v p.1))
    ∧ ((tourRepo n v).map Prod.fst).Sublist (arc_IJ n)
    ∧ extractTour n (fun a => some (v a)) = Except.ok (tourRepo n v) :=
  ⟨mem_tourRepo n v, tourRepo_fst_sublist n v, extractTour_of_solved n v⟩

/-- Claim C9: when no incumbent solution is loaded (all variable values
are Python `None`, as after an infeasible solve), the extraction raises
the untyped `ValueError` from evaluating the objective — not a typed
`NoSolutionAvailable` error, which does not exist in the code — and in
particular never returns a result tuple. -/
theorem claim_C9_no_incumbent (n : ℕ) (M : List (List ℚ)) (ub lb t : ℚ) (hn : 1 ≤ n) :
    extractResults n M (fun _ => none) ub lb t = Except.error PyExn.valueError
    ∧ (∀ r, extractResults n M (fun _ => none) ub lb t ≠ Except.ok r) := by
  have harc : (0, 1) ∈ arc_IJ n := (mem_arc_IJ n (0, 1)).mpr ⟨Nat.zero_le n, hn, by omega⟩
  have hnotall : ¬ ∀ a ∈ arc_IJ n, ((fun _ => (none : Option ℚ)) a).isSome := by
    intro hall
    have := hall (0, 1) harc
    simp at this
  have hobj : evalObjective n M (fun _ => none) = Except.error PyExn.valueError := by
    unfold evalObjective
    rw [if_neg hnotall]
  have hmain : extractResults n M (fun _ => none) ub lb t = Except.error PyExn.valueError := by
    unfold extractResults
    rw [hobj]
    rfl
  refine ⟨hmain, ?_⟩
  intro r h
  rw [hmain] at h
  exact Except.noConfusion h

theorem claim_C9_witness :
    extractResults 1 [[0]] (fun _ => none) 1 0 0 = Except.error PyExn.valueError :=
  (claim_C9_no_incumbent 1 [[0]] 1 0 0 (by norm_num)).1

/-- Claim C10: for every nonempty input sequence, `powerset` enumerates
subsets in nondecreasing size order, starting with the empty tuple and
ending with the full input; the Python slice `[1:-1]` therefore removes
precisely the empty set and the full set and nothing else — the
remaining entries are exactly the proper nonempty subsequences, with the
singletons still present. -/
theorem claim_C10_slice {α : Type} (s : List α) (hs : s ≠ []) :
    powerset s = [] :: (pySlice1m1 (powerset s) ++ [s])
    ∧ (∀ t : List α, t ∈ pySlice1m1 (powerset s) ↔ (t.Sublist s ∧ t ≠ [] ∧ t ≠ s))
    ∧ ((powerset s).map List.length).Sorted (· ≤ ·) := by
  have hsl := slice_powerset s hs
  refine ⟨?_, ?_, sorted_length_powerset s⟩
  · rw [hsl]
    exact powerset_decomp s hs
  · intro t
    rw [hsl]
    exact mem_middlePart s t

theorem claim_C10_witness : [1] ∈ pySlice1m1 (powerset [1, 2, 3]) :=
  ((claim_C10_slice [1, 2, 3] (by decide)).2.1 [1]).mpr (by decide)

end TSPDFJ
